import Mathlib

/-!
Verification of the core behaviour of `sort-photos.py` (vitovt/sort-photos).

Paths are modelled as lists of components (the result of splitting an
absolute path at the separator); file contents are natural numbers; the
filesystem is a partial map from paths to contents.  Machine-level
details that the program never exercises (Unicode case folding beyond
ASCII, non-ASCII decimal digits in regular expressions) are modelled at
the ASCII level, which is faithful on every string the program builds
itself and on the inputs the claims are about.
-/

namespace SortPhotos

/-- A filesystem path, as its list of components (already made absolute,
as the program does with `os.path.abspath`). -/
abbrev Path := List String

/-- Character-list comparison by code point, the semantics of Python
string comparison. -/
def cmpCharList : List Char → List Char → Ordering
  | [], [] => .eq
  | [], _ :: _ => .lt
  | _ :: _, [] => .gt
  | a :: as, b :: bs =>
    if a.toNat < b.toNat then .lt
    else if b.toNat < a.toNat then .gt
    else cmpCharList as bs

/-- Python `<=` on strings, as a boolean. -/
def charListLe (a b : List Char) : Bool :=
  cmpCharList a b ≠ Ordering.gt

/-- `os.path.basename` on a component path: the final component. -/
def basename (p : Path) : List String :=
  match p.getLast? with
  | some b => [b]
  | none => []

/-- The final component of a path as a character list (empty path gives
the empty string, matching `os.path.basename` on an empty input). -/
def basenameChars (p : Path) : List Char :=
  (p.getLastD "").toList

/-- ASCII lower-casing of one character, the fragment of `str.lower`
that the program relies on: every character the lookup keeps afterwards
is ASCII. -/
def lowerChar (c : Char) : Char := c.toLower

/-- `str.lower` on a character list (ASCII fragment). -/
def lowerChars (s : List Char) : List Char := s.map lowerChar

/-- `str.upper` on a string (ASCII fragment), used on `event.char` and
`event.keysym`. -/
def upperStr (s : String) : String := String.mk (s.toList.map Char.toUpper)

/-- Numeric value of a decimal digit run, the effect of `int(chunk)`. -/
def strToNat (s : List Char) : Nat :=
  s.foldl (fun acc c => 10 * acc + (c.toNat - 48)) 0

/-!
## `_natural_key` — the natural sort key

`NATURAL_CHUNK_RE = re.compile(r"(\d+)")`; `re.split` with this pattern
cuts the string at every maximal run of decimal digits and keeps the
runs, so the result alternates (possibly empty) digit-free pieces with
nonempty digit runs, starting and ending with a digit-free piece.
`natChunks` computes that decomposition by a single structural pass.
-/

/-- `re.split(r"(\d+)", text)` on a character list: alternating list of
digit-free chunks and maximal digit runs, first and last chunks
digit-free (possibly empty). -/
def natChunks : List Char → List (List Char)
  | [] => [[]]
  | c :: cs =>
    let r := natChunks cs
    if c.isDigit then
      match r with
      | [] :: d :: t => [] :: (c :: d) :: t
      | other => [] :: [c] :: other
    else
      match r with
      | h :: t => (c :: h) :: t
      | [] => [[c]]

/-- One element of a natural sort key: a lowered text chunk or the
integer value of a digit run (Python builds a mixed `str`/`int` list). -/
inductive NElem where
  | str (s : List Char)
  | num (n : Nat)
deriving DecidableEq

/-- `_natural_key`: map each chunk of `re.split(r"(\d+)", text)` to
`int(chunk)` when `chunk.isdigit()` and to `chunk.lower()` otherwise. -/
def naturalKey (text : List Char) : List NElem :=
  (natChunks text).map fun chunk =>
    if chunk ≠ [] ∧ chunk.all Char.isDigit then NElem.num (strToNat chunk)
    else NElem.str (lowerChars chunk)

/-- Python integer comparison as an `Ordering`. -/
def cmpNat (a b : Nat) : Ordering :=
  if a < b then .lt else if b < a then .gt else .eq

/-- Comparison of two key elements.  Python compares `int` with `int`
and `str` with `str`; comparing an `int` with a `str` raises
`TypeError`, modelled as `none`. -/
def nelemCmp : NElem → NElem → Option Ordering
  | .str a, .str b => some (cmpCharList a b)
  | .num a, .num b => some (cmpNat a b)
  | _, _ => none

/-- Python list comparison on natural keys: lexicographic, first
difference decides, shorter prefix is smaller; a type mismatch at the
deciding position raises (`none`). -/
def natListCmp : List NElem → List NElem → Option Ordering
  | [], [] => some .eq
  | [], _ :: _ => some .lt
  | _ :: _, [] => some .gt
  | a :: as, b :: bs =>
    match nelemCmp a b with
    | some .eq => natListCmp as bs
    | other => other

/-- Boolean `<=` on natural keys.  The `none` (TypeError) case never
arises between two keys produced by `naturalKey` (see the shape
theorem); the default chosen for it is immaterial. -/
def natListLe (a b : List NElem) : Bool :=
  match natListCmp a b with
  | some .gt => false
  | _ => true

/-!
## The sort-mode table and the `--sort` normalizer
-/

/-- `_normalize_sort_mode`: lower-case the value and drop every
character outside `[a-z0-9]` (the regular expression
`re.sub(r"[^a-z0-9]", "", value.lower())`). -/
def normalizeSortMode (value : String) : String :=
  String.mk ((value.toList.map lowerChar).filter fun c =>
    (97 ≤ c.toNat ∧ c.toNat ≤ 122) ∨ (48 ≤ c.toNat ∧ c.toNat ≤ 57))

/-- The per-mode configuration carried by `SORT_MODE_VARIANTS`:
extractor kind (`"alpha"`, `"natural"` or `"stat"`), the stat attribute
name when relevant, and the direction flag. -/
structure SortConfig where
  ctype : String
  attrName : String
  reverse : Bool
deriving DecidableEq

/-- `SORT_MODE_VARIANTS`: the ten built-in modes, in source order, as
(key, display label, configuration). -/
def SORT_MODE_VARIANTS : List (String × String × SortConfig) :=
  [ ("name", "За назвою (А-Я)", ⟨"alpha", "", false⟩),
    ("name-rev", "За назвою (Я-А)", ⟨"alpha", "", true⟩),
    ("natural", "Натуральне сортування (1,2,10)", ⟨"natural", "", false⟩),
    ("natural-rev", "Натуральне сортування (10,2,1)", ⟨"natural", "", true⟩),
    ("created", "За датою створення (старі→нові)", ⟨"stat", "st_ctime", false⟩),
    ("created-rev", "За датою створення (нові→старі)", ⟨"stat", "st_ctime", true⟩),
    ("modified", "За датою зміни (старі→нові)", ⟨"stat", "st_mtime", false⟩),
    ("modified-rev", "За датою зміни (нові→старі)", ⟨"stat", "st_mtime", true⟩),
    ("size", "За розміром (менші→більші)", ⟨"stat", "st_size", false⟩),
    ("size-rev", "За розміром (більші→менші)", ⟨"stat", "st_size", true⟩) ]

/-- The ten mode keys, in source order. -/
def sortModeKeys : List String := SORT_MODE_VARIANTS.map (·.1)

/-- The ten display labels, in source order. -/
def sortModeLabels : List String := SORT_MODE_VARIANTS.map (·.2.1)

/-- Assignment into a Python dict modelled as an association list:
replace the binding when the key exists, append otherwise. -/
def dictSet (d : List (String × String)) (k v : String) :
    List (String × String) :=
  if d.any (fun kv => kv.1 = k) then
    d.map (fun kv => if kv.1 = k then (k, v) else kv)
  else
    d ++ [(k, v)]

/-- Python dict lookup on the association-list model. -/
def dictGet (d : List (String × String)) (k : String) : Option String :=
  (d.find? (fun kv => kv.1 = k)).map (·.2)

/-- `SORT_MODE_LOOKUP`: for each variant in order, bind the normalized
key and then the normalized label to the key, later bindings
overwriting earlier ones. -/
def SORT_MODE_LOOKUP : List (String × String) :=
  SORT_MODE_VARIANTS.foldl
    (fun d kv =>
      dictSet (dictSet d (normalizeSortMode kv.1) kv.1)
        (normalizeSortMode kv.2.1) kv.1)
    []

/-- The `--sort` value handling in `__main__`: normalize the value and
look it up; `none` means the program prints the usage text and exits
with code 1, `some k` means mode `k` is selected. -/
def parseSortValue (value : String) : Option String :=
  dictGet SORT_MODE_LOOKUP (normalizeSortMode value)

/-- `SORT_MODE_INFO` lookup (keys are the unique mode keys). -/
def sortModeInfo (mode : String) : Option SortConfig :=
  (SORT_MODE_VARIANTS.find? (fun kv => kv.1 = mode)).map (·.2.2)

/-!
## `_sort_photo_list` — the sorting operation

`sorted(files, key=key_func, reverse=reverse)` is Python's stable sort:
the output is ordered by key, equal-key elements keep their input
order, and `reverse=True` flips only comparisons of unequal keys (the
documentation guarantees that `reverse` maintains stability).  A stable
sort is realized by insertion sort with a non-strict comparison, with
the key arguments swapped for the descending direction.
-/

/-- A sort key: one of the three extractor kinds.  A single run of the
sort only ever compares keys of one kind; the cross-kind value of the
comparison below is never exercised. -/
inductive SKey where
  | alpha (s : List Char)
  | natural (k : List NElem)
  | stat (v : Int)
deriving DecidableEq

/-- Non-strict key comparison (Python `<=` on the respective key
types). -/
def skeyLe : SKey → SKey → Bool
  | .alpha a, .alpha b => charListLe a b
  | .natural a, .natural b => natListLe a b
  | .stat a, .stat b => a ≤ b
  | _, _ => true

/-- Insert `a` into `l` in front of the first element `b` with
`r a b`. -/
def orderedInsertB (r : α → α → Bool) (a : α) : List α → List α
  | [] => [a]
  | b :: l => if r a b then a :: b :: l else b :: orderedInsertB r a l

/-- Insertion sort with a boolean non-strict comparison; with a total
preorder `r` this is the stable sort, the semantics of Python
`sorted`. -/
def insertionSortB (r : α → α → Bool) : List α → List α
  | [] => []
  | a :: l => orderedInsertB r a (insertionSortB r l)

/-- `_get_stat_value`: `os.stat` then `getattr(stat_result, attribute, 0)`,
returning 0 when the stat call fails.  `osStat` is the filesystem
metadata oracle: `none` models a raised `OSError`. -/
def getStatValue (osStat : Path → Option (String → Int)) (p : Path)
    (attrName : String) : Int :=
  match osStat p with
  | none => 0
  | some f => f attrName

/-- The key function `_sort_photo_list` builds for a configuration. -/
def sortKeyFun (osStat : Path → Option (String → Int)) (config : SortConfig)
    (p : Path) : SKey :=
  if config.ctype = "alpha" then .alpha (lowerChars (basenameChars p))
  else if config.ctype = "natural" then .natural (naturalKey (basenameChars p))
  else if config.ctype = "stat" then .stat (getStatValue osStat p config.attrName)
  else .alpha (lowerChars (basenameChars p))

/-- The configuration `_sort_photo_list` uses:
`SORT_MODE_INFO.get(self.sort_mode, SORT_MODE_INFO["name"])`. -/
def sortConfigOf (mode : String) : SortConfig :=
  (sortModeInfo mode).getD ⟨"alpha", "", false⟩

/-- The sort key of a path under a given mode. -/
def sortKey (osStat : Path → Option (String → Int)) (mode : String)
    (p : Path) : SKey :=
  sortKeyFun osStat (sortConfigOf mode) p

/-- `_sort_photo_list`: look the mode up (defaulting to `name`), build
the key function, and run the stable sort, descending when the
configuration says so. -/
def sortPhotoList (osStat : Path → Option (String → Int)) (mode : String)
    (files : List Path) : List Path :=
  let config := sortConfigOf mode
  let keyF := sortKeyFun osStat config
  let r : Path → Path → Bool := fun a b =>
    if config.reverse then skeyLe (keyF b) (keyF a) else skeyLe (keyF a) (keyF b)
  insertionSortB r files

/-!
## The spec-side reading of "case/punctuation-insensitive label match"

Used only to compare the specification's acceptance condition for
`--sort` with the code's; translated from the spec's words, not from
the source.
-/

/-- Lower-case and drop punctuation, keeping letters and digits:
ASCII alphanumerics and every character beyond ASCII (the labels are
Ukrainian). -/
def specStrip (value : String) : List Char :=
  (value.toList.map lowerChar).filter fun c =>
    (97 ≤ c.toNat ∧ c.toNat ≤ 122) ∨ (48 ≤ c.toNat ∧ c.toNat ≤ 57) ∨
      128 ≤ c.toNat

/-- A case/punctuation-insensitive match of a `--sort` value against a
display label, following the specification's words. -/
def specLabelMatch (value label : String) : Bool :=
  specStrip value = specStrip label

/-!
## `_move_photo` — the transfer engine

The filesystem is a partial map from paths to contents (`Nat`); moving
and copying act on that map.  `os.makedirs(..., exist_ok=True)` has no
footprint in the file map.  An I/O failure anywhere in the `try` block
is modelled by the `ioFail` oracle; the handler catches it, so the map
is unchanged and only an error status is reported.
-/

/-- Length of the common prefix of two component lists (the common
prefix `os.path.relpath` strips). -/
def commonLen : List String → List String → Nat
  | a :: as, b :: bs => if a = b then commonLen as bs + 1 else 0
  | _, _ => 0

/-- `os.path.relpath(p, start)` on absolute component paths: strip the
common prefix, then one `..` per remaining component of `start`
followed by the remaining components of `p`. -/
def relpath (p start : Path) : Path :=
  List.replicate (start.length - commonLen p start) ".." ++
    p.drop (commonLen p start)

/-- `os.path.join(base, rel)` for a relative second argument. -/
def joinPath (base rel : Path) : Path := base ++ rel

/-- The destination path `_move_photo` computes:
`os.path.join(destination_base_dir, os.path.relpath(source_path, self.source_dir))`. -/
def movePhotoDest (sourceDir sourcePath destBase : Path) : Path :=
  joinPath destBase (relpath sourcePath sourceDir)

/-- The filesystem contents: a partial map from paths to file bytes. -/
abbrev Fs := Path → Option Nat

/-- Point update of the file map. -/
def fsSet (fs : Fs) (p : Path) (v : Option Nat) : Fs :=
  fun q => if q = p then v else fs q

/-- `_move_photo`'s effect on the file map: `shutil.copy2` writes the
source bytes at the destination; `shutil.move` additionally removes the
source.  Returns the new map and whether the transfer succeeded. -/
def movePhotoFs (ioFail : Bool) (transferMode : String) (sourceDir : Path)
    (fs : Fs) (sourcePath destBase : Path) : Fs × Bool :=
  let dest := movePhotoDest sourceDir sourcePath destBase
  if ioFail then (fs, false)
  else if transferMode = "copy" then (fsSet fs dest (fs sourcePath), true)
  else (fsSet (fsSet fs dest (fs sourcePath)) sourcePath none, true)

/-!
## The navigation session

The mutable fields of `PhotoSorterApp` that the key, resize and
load-next handlers touch, together with an action log (most recent
action first) recording the externally visible operations.  `previewOk`
is the display oracle: `false` means the preview block raised (the
`except` branch of `load_next_photo`, which skips to the next entry).
-/

/-- Externally visible actions of the session handlers. -/
inductive Act where
  | stopPlayback
  | preview (p : Path)
  | previewError (p : Path)
  | transfer (src dest : Path) (ok : Bool)
  | skip (p : Path)
  | help
  | destroy
  | togglePause
  | seekBy (delta : Int)
  | doneMsg
  | noFilesMsg
  | tkError
deriving DecidableEq

/-- The session state. -/
structure Session where
  files : List Path
  idx : Int
  sourceDir : Path
  destMap : List (String × Path)
  transferMode : String
  fs : Fs
  currentIsVideo : Bool
  previewOk : Path → Bool
  log : List Act

/-- Python list indexing: negative indices count from the end; an index
out of range raises (`none`). -/
def pyIndex (l : List α) (i : Int) : Option α :=
  if 0 ≤ i then l.get? i.toNat
  else if 0 ≤ i + l.length then l.get? (i + l.length).toNat
  else none

/-- `VIDEO_EXTENSIONS` from the source. -/
def VIDEO_EXTENSIONS : List String :=
  [".mp4", ".mov", ".avi", ".mkv", ".m4v", ".wmv", ".mpg", ".mpeg",
   ".flv", ".webm", ".3gp"]

/-- `_is_supported_video`: the lower-cased path ends with one of the
video extensions (an extension never spans a separator, so the final
component decides). -/
def isSupportedVideo (p : Path) : Bool :=
  VIDEO_EXTENSIONS.any fun e => e.toList.isSuffixOf (lowerChars (basenameChars p))

/-- A key event: the printable character and the symbolic key name
delivered by the toolkit. -/
structure KeyEvent where
  char : String
  keysym : String

/-- `load_next_photo`: stop playback, advance the cursor, and either
preview the entry at the new cursor (recording its media kind), recurse
past it when the preview raises, or show the end-of-sequence message. -/
def loadNextPhoto (s : Session) : Session :=
  if h : s.idx + 1 < (s.files.length : Int) then
    match pyIndex s.files (s.idx + 1) with
    | none =>
      { s with idx := s.idx + 1,
               log := Act.tkError :: Act.stopPlayback :: s.log }
    | some cur =>
      if s.previewOk cur then
        { s with idx := s.idx + 1, currentIsVideo := isSupportedVideo cur,
                 log := Act.preview cur :: Act.stopPlayback :: s.log }
      else
        loadNextPhoto
          { s with idx := s.idx + 1,
                   log := Act.previewError cur :: Act.stopPlayback :: s.log }
  else if s.files.length = 0 then
    { s with idx := s.idx + 1,
             log := Act.noFilesMsg :: Act.stopPlayback :: s.log }
  else
    { s with idx := s.idx + 1,
             log := Act.doneMsg :: Act.stopPlayback :: s.log }
termination_by ((s.files.length : Int) + 1 - s.idx).toNat
decreasing_by
  omega

/-- The routing-key branch of `on_key_press`: run `_move_photo`,
logging the transfer with its outcome. -/
def movePhotoS (ioFail : Bool) (sourcePath destBase : Path) (s : Session) :
    Session :=
  let r := movePhotoFs ioFail s.transferMode s.sourceDir s.fs sourcePath destBase
  { s with fs := r.1,
           log := Act.transfer sourcePath
             (movePhotoDest s.sourceDir sourcePath destBase) r.2 :: s.log }

/-- `on_key_press`: upper-case the character and key symbol, ignore the
event entirely once the cursor has passed the end, and otherwise
dispatch on routing keys, skip, quit, the media-control keys (only
while the current item is a video) and the help fallback.  Only the
routing and skip branches fall through to `load_next_photo`. -/
def onKeyPress (ioFail : Bool) (e : KeyEvent) (s : Session) : Session :=
  let key := upperStr e.char
  let keysym := upperStr e.keysym
  if (s.files.length : Int) ≤ s.idx then s
  else
    match pyIndex s.files s.idx with
    | none => { s with log := Act.tkError :: s.log }
    | some cur =>
      let isVideo := s.currentIsVideo
      match (s.destMap.find? (fun kv => kv.1 = key)).map (·.2) with
      | some dest => loadNextPhoto (movePhotoS ioFail cur dest s)
      | none =>
        if key = "S" then
          loadNextPhoto { s with log := Act.skip cur :: Act.stopPlayback :: s.log }
        else if key = "Q" then
          { s with log := Act.destroy :: Act.stopPlayback :: s.log }
        else if keysym = "SPACE" ∧ isVideo then
          { s with log := Act.togglePause :: s.log }
        else if keysym = "LEFT" ∧ isVideo then
          { s with log := Act.seekBy (-5000) :: s.log }
        else if keysym = "RIGHT" ∧ isVideo then
          { s with log := Act.seekBy 5000 :: s.log }
        else
          { s with log := Act.help :: s.log }

/-- `on_resize`: when the notification is for the main window and a
cursor exists, step the cursor back and reload, so the same entry is
shown again. -/
def onResize (widgetIsMaster : Bool) (s : Session) : Session :=
  if widgetIsMaster then
    if 0 ≤ s.idx then loadNextPhoto { s with idx := s.idx - 1 } else s
  else s

/-!
## The playback controller

The four fields of `PhotoSorterApp` that the playback helpers touch,
plus an action list recording every operation issued to the toolkit
timer or the backend handle.
-/

/-- The playback-related state fields. -/
structure PbState where
  videoStatusJob : Option Nat
  vlcPlayer : Option Nat
  videoDurationMs : Int
  videoPaused : Bool
deriving DecidableEq

/-- Operations issued by the playback helpers. -/
inductive PbAct where
  | afterCancel
  | playerStop
  | playerPlay
  | setTime (t : Int)
  | setPause
  | readStatus
  | schedule (id : Nat)
deriving DecidableEq

/-- `_stop_video_playback`: cancel the poll timer when one is pending,
stop the backend handle when one is live, and clear all four fields. -/
def stopVideoPlayback (s : PbState) : PbState × List PbAct :=
  let cancelActs := match s.videoStatusJob with
    | some _ => [PbAct.afterCancel]
    | none => []
  let stopActs := match s.vlcPlayer with
    | some _ => [PbAct.playerStop]
    | none => []
  (⟨none, none, 0, false⟩, cancelActs ++ stopActs)

/-- `_update_video_status` — the progress-poll callback.  `readTime`
and `readLen` are what `get_time()`/`get_length()` would report; when
no handle is live the callback returns at once, reading nothing and
rescheduling nothing.  Otherwise it caches a positive reported
duration, renders the status line, and reschedules itself under a fresh
timer id. -/
def updateVideoStatus (readTime readLen : Int) (newId : Nat) (s : PbState) :
    PbState × List PbAct :=
  match s.vlcPlayer with
  | none => (s, [])
  | some _ =>
    let dur := if readLen ≠ 0 ∧ 0 < readLen then readLen else s.videoDurationMs
    let cancelActs := match s.videoStatusJob with
      | some _ => [PbAct.afterCancel]
      | none => []
    ({ s with videoDurationMs := dur, videoStatusJob := some newId },
      [PbAct.readStatus] ++ cancelActs ++ [PbAct.schedule newId])

/-- The backend playback states `_seek_video` inspects. -/
inductive VlcState where
  | playing
  | pausedState
  | stopped
  | ended
  | opening
  | other
deriving DecidableEq

/-- `_seek_video`: with no live handle, do nothing.  Otherwise compute
the clamped target; when the backend reports `Ended`/`Stopped` and the
target is short of the reported length, stop, replay, clear the paused
flag and apply the deferred seek (which then sees the cleared flag);
otherwise apply the seek at once and re-issue the pause when the
session was paused. -/
def seekVideo (current length : Int) (st : VlcState) (delta : Int)
    (s : PbState) : PbState × List PbAct :=
  match s.vlcPlayer with
  | none => (s, [])
  | some _ =>
    let target0 := current + delta
    let target :=
      if length ≠ 0 ∧ 0 < length then max 0 (min target0 length)
      else max 0 target0
    let restartNeeded : Prop :=
      length ≠ 0 ∧ target < length ∧ (st = VlcState.ended ∨ st = VlcState.stopped)
    if restartNeeded then
      ({ s with videoPaused := false },
        [PbAct.playerStop, PbAct.playerPlay, PbAct.setTime target])
    else
      (s, [PbAct.setTime target] ++ (if s.videoPaused then [PbAct.setPause] else []))

/-- The seek target in the words of the specification: clamp
`current + delta` into `[0, duration]` when the duration is known
(reported positive), else `max 0 (current + delta)`.  Spec-side
definition, for comparison with `seekVideo`. -/
def specSeekTarget (current length delta : Int) : Int :=
  if 0 < length then max 0 (min (current + delta) length)
  else max 0 (current + delta)

/-- The restart condition in the words of the specification: the
backend is already in `Stopped`/`Ended` and the computed target is
still below the known duration.  Spec-side definition. -/
def specSeekRestart (current length delta : Int) (st : VlcState) : Prop :=
  0 < length ∧ specSeekTarget current length delta < length
    ∧ (st = VlcState.ended ∨ st = VlcState.stopped)

/-!
## Shape predicates for the natural key, and fixtures

`ChunksShape` is the shape `re.split(r"(\d+)", text)` guarantees:
alternating digit-free chunks and nonempty digit runs, first and last
digit-free.  `NatShape` is the corresponding shape of the mixed key
list: a string at every even index, an integer at every odd one, odd
length. -/

/-- A chunk without decimal digits. -/
def NoDigit (c : List Char) : Prop := ∀ x ∈ c, x.isDigit = false

/-- The alternation produced by splitting at maximal digit runs. -/
inductive ChunksShape : List (List Char) → Prop
  | single (c : List Char) (hc : NoDigit c) : ChunksShape [c]
  | cons (c d : List Char) (rest : List (List Char)) (hc : NoDigit c)
      (hne : d ≠ []) (hdig : ∀ x ∈ d, x.isDigit = true)
      (h : ChunksShape rest) : ChunksShape (c :: d :: rest)

/-- The alternation of a natural sort key. -/
inductive NatShape : List NElem → Prop
  | single (s : List Char) : NatShape [NElem.str s]
  | cons (s : List Char) (n : Nat) (rest : List NElem) (h : NatShape rest) :
      NatShape (NElem.str s :: NElem.num n :: rest)

/-- A metadata oracle for witnesses: every stat attribute reads 5. -/
def constStat : Path → Option (String → Int) := fun _ => some fun _ => 5

/-- Sample discovered files for witnesses. -/
def sampleFiles : List Path := [["source", "a.jpg"], ["source", "b.mp4"]]

/-- A sample file map for witnesses: one file under the source root. -/
def sampleFs : Fs :=
  fun p => if p = ["source", "a", "b", "c.jpg"] then some 7 else none

/-- A sample session state for witnesses. -/
def sampleSession : Session :=
  { files := sampleFiles, idx := 0, sourceDir := ["source"],
    destMap := [("1", ["d1"]), ("2", ["d2"])], transferMode := "move",
    fs := fun _ => none, currentIsVideo := false,
    previewOk := fun _ => true, log := [] }

/-!
# Theorems

## Reflexivity of the non-strict key comparisons
-/

theorem cmpCharList_self (s : List Char) : cmpCharList s s = Ordering.eq := by
  induction s with
  | nil => rfl
  | cons a as ih => simp [cmpCharList, ih]

theorem charListLe_self (s : List Char) : charListLe s s = true := by
  simp [charListLe, cmpCharList_self]

theorem cmpNat_self (n : Nat) : cmpNat n n = Ordering.eq := by
  unfold cmpNat
  split_ifs with h1 h2 <;> first | rfl | omega

theorem cmpNat_swap (n m : Nat) : cmpNat m n = (cmpNat n m).swap := by
  unfold cmpNat
  split_ifs with h1 h2 h3 h4 <;> first | rfl | omega

theorem cmpNat_eq_iff (n m : Nat) (h : cmpNat n m = Ordering.eq) : n = m := by
  unfold cmpNat at h
  split_ifs at h with h1 h2 <;> omega

theorem nelemCmp_self (e : NElem) : nelemCmp e e = some Ordering.eq := by
  cases e with
  | str s => simp [nelemCmp, cmpCharList_self]
  | num n => simp [nelemCmp, cmpNat_self]

theorem natListCmp_self (k : List NElem) : natListCmp k k = some Ordering.eq := by
  induction k with
  | nil => rfl
  | cons e es ih => simp [natListCmp, nelemCmp_self, ih]

theorem natListLe_self (k : List NElem) : natListLe k k = true := by
  simp [natListLe, natListCmp_self]

theorem skeyLe_self (k : SKey) : skeyLe k k = true := by
  cases k with
  | alpha s => simp [skeyLe, charListLe_self]
  | natural n => simp [skeyLe, natListLe_self]
  | stat v => simp [skeyLe]

/-!
## Stability of insertion sort

With a comparison that holds in both directions on a key class, the
sort neither reorders the class nor moves anything across it: filtering
the output by the class gives the input filtered by the class.
-/

theorem filter_orderedInsertB_pos (r : α → α → Bool) (p : α → Bool) (a : α)
    (ha : p a = true) (hall : ∀ b, p b = true → r a b = true) (l : List α) :
    (orderedInsertB r a l).filter p = a :: l.filter p := by
  induction l with
  | nil => simp [orderedInsertB, ha]
  | cons b l ih =>
    by_cases hr : r a b = true
    · simp [orderedInsertB, hr, ha]
    · have hb : p b = false := by
        cases hpb : p b with
        | false => rfl
        | true => exact absurd (hall b hpb) hr
      simp [orderedInsertB, hr, List.filter_cons, hb, ih]

theorem filter_orderedInsertB_neg (r : α → α → Bool) (p : α → Bool) (a : α)
    (ha : p a = false) (l : List α) :
    (orderedInsertB r a l).filter p = l.filter p := by
  induction l with
  | nil => simp [orderedInsertB, ha]
  | cons b l ih =>
    by_cases hr : r a b = true
    · simp [orderedInsertB, hr, List.filter_cons, ha]
    · simp [orderedInsertB, hr, List.filter_cons, ih]

theorem filter_insertionSortB (r : α → α → Bool) (p : α → Bool)
    (hcl : ∀ a b, p a = true → p b = true → r a b = true) (l : List α) :
    (insertionSortB r l).filter p = l.filter p := by
  induction l with
  | nil => rfl
  | cons a l ih =>
    cases hpa : p a with
    | true =>
      rw [insertionSortB, filter_orderedInsertB_pos r p a hpa (fun b hb => hcl a b hpa hb),
        ih, List.filter_cons_of_pos]
      simp [hpa]
    | false =>
      rw [insertionSortB, filter_orderedInsertB_neg r p a hpa, ih,
        List.filter_cons_of_neg]
      simp [hpa]

/-- C1: For every list of discovered entries and every one of the 10
sort modes, `_sort_photo_list` is stable: entries whose sort keys are
equal appear in the output in their original discovery order, under the
ascending and the descending variants alike (the ten modes comprise
both directions of the five axes), so the direction flag can only
change the relative order of entries with unequal keys. -/
theorem sortPhotoList_stable (osStat : Path → Option (String → Int))
    (mode : String) (hmode : mode ∈ sortModeKeys) (files : List Path)
    (k : SKey) :
    (sortPhotoList osStat mode files).filter
        (fun p => decide (sortKey osStat mode p = k))
      = files.filter (fun p => decide (sortKey osStat mode p = k)) := by
  unfold sortPhotoList
  apply filter_insertionSortB
  intro a b ha hb
  have ha2 : sortKey osStat mode a = k := of_decide_eq_true ha
  have hb2 : sortKey osStat mode b = k := of_decide_eq_true hb
  unfold sortKey at ha2 hb2
  cases hrev : (sortConfigOf mode).reverse <;>
    simp [hrev, ha2, hb2, skeyLe_self]

/-- Witness for C1 at a concrete mode and file list with equal keys. -/
theorem sortPhotoList_stable_witness :
    "created" ∈ sortModeKeys ∧
      (sortPhotoList constStat "created" sampleFiles).filter
          (fun p => decide (sortKey constStat "created" p = SKey.stat 5))
        = sampleFiles.filter
            (fun p => decide (sortKey constStat "created" p = SKey.stat 5)) :=
  ⟨by decide, sortPhotoList_stable constStat "created" (by decide) sampleFiles
    (SKey.stat 5)⟩

/-!
## Shape and totality of the natural sort key
-/

theorem chunksShape_natChunks (cs : List Char) : ChunksShape (natChunks cs) := by
  induction cs with
  | nil => exact ChunksShape.single [] (fun x hx => by cases hx)
  | cons c cs ih =>
    simp only [natChunks]
    generalize hg : natChunks cs = r at ih ⊢
    by_cases hc : c.isDigit = true
    · rw [if_pos hc]
      cases ih with
      | single c0 hc0 =>
        cases c0 with
        | nil =>
          exact ChunksShape.cons [] [c] [[]] (fun x hx => by cases hx)
            (by simp)
            (by intro x hx; simp at hx; subst hx; exact hc)
            (ChunksShape.single [] (fun x hx => by cases hx))
        | cons y ys =>
          exact ChunksShape.cons [] [c] [y :: ys] (fun x hx => by cases hx)
            (by simp)
            (by intro x hx; simp at hx; subst hx; exact hc)
            (ChunksShape.single (y :: ys) hc0)
      | cons c0 d rest hc0 hne hdig hrest =>
        cases c0 with
        | nil =>
          exact ChunksShape.cons [] (c :: d) rest (fun x hx => by cases hx)
            (by simp)
            (by
              intro x hx
              rcases List.mem_cons.mp hx with h | h
              · subst h; exact hc
              · exact hdig x h)
            hrest
        | cons y ys =>
          exact ChunksShape.cons [] [c] ((y :: ys) :: d :: rest)
            (fun x hx => by cases hx)
            (by simp)
            (by intro x hx; simp at hx; subst hx; exact hc)
            (ChunksShape.cons (y :: ys) d rest hc0 hne hdig hrest)
    · rw [if_neg hc]
      have hcf : c.isDigit = false := by
        cases h2 : c.isDigit
        · rfl
        · exact absurd h2 hc
      cases ih with
      | single c0 hc0 =>
        refine ChunksShape.single (c :: c0) ?_
        intro x hx
        rcases List.mem_cons.mp hx with h | h
        · subst h; exact hcf
        · exact hc0 x h
      | cons c0 d rest hc0 hne hdig hrest =>
        refine ChunksShape.cons (c :: c0) d rest ?_ hne hdig hrest
        intro x hx
        rcases List.mem_cons.mp hx with h | h
        · subst h; exact hcf
        · exact hc0 x h

theorem nodigit_chunk_to_str (c : List Char) (hc : NoDigit c) :
    (if c ≠ [] ∧ c.all Char.isDigit then NElem.num (strToNat c)
      else NElem.str (lowerChars c)) = NElem.str (lowerChars c) := by
  rw [if_neg]
  rintro ⟨hne, hall⟩
  cases c with
  | nil => exact hne rfl
  | cons x xs =>
    have h1 := hc x (by simp)
    have h2 := List.all_eq_true.mp hall x (by simp)
    rw [h1] at h2
    cases h2

theorem natShape_of_chunks (l : List (List Char)) (h : ChunksShape l) :
    NatShape (l.map fun chunk =>
      if chunk ≠ [] ∧ chunk.all Char.isDigit then NElem.num (strToNat chunk)
      else NElem.str (lowerChars chunk)) := by
  induction h with
  | single c hc =>
    simp only [List.map_cons, List.map_nil, nodigit_chunk_to_str c hc]
    exact NatShape.single _
  | cons c d rest hc hne hdig hrest ih =>
    simp only [List.map_cons, nodigit_chunk_to_str c hc]
    rw [if_pos ⟨hne, List.all_eq_true.mpr (fun x hx => hdig x hx)⟩]
    exact NatShape.cons _ _ _ ih

theorem natShape_naturalKey (s : List Char) : NatShape (naturalKey s) :=
  natShape_of_chunks (natChunks s) (chunksShape_natChunks s)

theorem natListCmp_isSome (a b : List NElem) (ha : NatShape a)
    (hb : NatShape b) : (natListCmp a b).isSome = true := by
  induction ha generalizing b with
  | single s =>
    cases hb with
    | single t =>
      cases h : cmpCharList s t <;> simp [natListCmp, nelemCmp, h]
    | cons t n rest hr =>
      cases h : cmpCharList s t <;> simp [natListCmp, nelemCmp, h]
  | cons s n rest hr ih =>
    cases hb with
    | single t =>
      cases h : cmpCharList s t <;> simp [natListCmp, nelemCmp, h]
    | cons t m rest2 hr2 =>
      cases h : cmpCharList s t with
      | lt => simp [natListCmp, nelemCmp, h]
      | gt => simp [natListCmp, nelemCmp, h]
      | eq =>
        cases hnm : cmpNat n m with
        | lt => simp [natListCmp, nelemCmp, h, hnm]
        | gt => simp [natListCmp, nelemCmp, h, hnm]
        | eq =>
          simp only [natListCmp, nelemCmp, h, hnm]
          exact ih rest2 hr2

theorem cmpCharList_eq_iff (a b : List Char)
    (h : cmpCharList a b = Ordering.eq) : a = b := by
  induction a generalizing b with
  | nil =>
    cases b with
    | nil => rfl
    | cons y ys => simp [cmpCharList] at h
  | cons x xs ih =>
    cases b with
    | nil => simp [cmpCharList] at h
    | cons y ys =>
      by_cases h1 : x.toNat < y.toNat
      · simp [cmpCharList, h1] at h
      · by_cases h2 : y.toNat < x.toNat
        · simp [cmpCharList, h1, h2] at h
        · have heq : x.toNat = y.toNat := by omega
          have hxy : x = y := Char.ext (UInt32.ext heq)
          simp only [cmpCharList, if_neg h1, if_neg h2] at h
          rw [hxy, ih ys h]

theorem nelemCmp_eq_iff (a b : NElem) (h : nelemCmp a b = some Ordering.eq) :
    a = b := by
  cases a with
  | str s =>
    cases b with
    | str t =>
      simp only [nelemCmp, Option.some_inj] at h
      rw [cmpCharList_eq_iff s t h]
    | num m => simp [nelemCmp] at h
  | num n =>
    cases b with
    | str t => simp [nelemCmp] at h
    | num m =>
      simp only [nelemCmp, Option.some_inj] at h
      rw [cmpNat_eq_iff n m h]

theorem natListCmp_eq_iff (a b : List NElem)
    (h : natListCmp a b = some Ordering.eq) : a = b := by
  induction a generalizing b with
  | nil =>
    cases b with
    | nil => rfl
    | cons y ys => simp [natListCmp] at h
  | cons x xs ih =>
    cases b with
    | nil => simp [natListCmp] at h
    | cons y ys =>
      simp only [natListCmp] at h
      cases he : nelemCmp x y with
      | none => rw [he] at h; cases h
      | some o =>
        cases o with
        | eq =>
          rw [he] at h
          rw [nelemCmp_eq_iff x y he, ih ys h]
        | lt => rw [he] at h; cases h
        | gt => rw [he] at h; cases h

theorem cmpCharList_swap (a b : List Char) :
    cmpCharList b a = (cmpCharList a b).swap := by
  induction a generalizing b with
  | nil => cases b <;> simp [cmpCharList, Ordering.swap]
  | cons x xs ih =>
    cases b with
    | nil => simp [cmpCharList, Ordering.swap]
    | cons y ys =>
      by_cases h1 : x.toNat < y.toNat
      · have h2 : ¬ y.toNat < x.toNat := by omega
        simp [cmpCharList, h1, h2, Ordering.swap]
      · by_cases h2 : y.toNat < x.toNat
        · simp [cmpCharList, h1, h2, Ordering.swap]
        · simp [cmpCharList, h1, h2, ih]

theorem nelemCmp_swap (a b : NElem) :
    nelemCmp b a = (nelemCmp a b).map Ordering.swap := by
  cases a with
  | str s =>
    cases b with
    | str t =>
      simp only [nelemCmp, Option.map_some']
      rw [cmpCharList_swap s t]
    | num m => simp [nelemCmp]
  | num n =>
    cases b with
    | str t => simp [nelemCmp]
    | num m =>
      simp only [nelemCmp, Option.map_some']
      rw [cmpNat_swap n m]

theorem natListCmp_swap (a b : List NElem) :
    natListCmp b a = (natListCmp a b).map Ordering.swap := by
  induction a generalizing b with
  | nil => cases b <;> rfl
  | cons x xs ih =>
    cases b with
    | nil => rfl
    | cons y ys =>
      simp only [natListCmp, nelemCmp_swap x y]
      cases he : nelemCmp x y with
      | none => rfl
      | some o =>
        cases o with
        | eq =>
          show natListCmp ys xs = (natListCmp xs ys).map Ordering.swap
          exact ih ys
        | lt => rfl
        | gt => rfl

/-- C9: the natural-sort key always has the alternating shape — odd
length, a (lowered, possibly empty) string chunk at every even index
and an integer at every odd index (so, the length being odd, the first
and last entries are strings) — and consequently comparing any two
natural keys never pairs an integer with a string: the comparator is
total and never raises a `TypeError`. -/
theorem naturalKey_alternation (s t : List Char) :
    (naturalKey s).length % 2 = 1
    ∧ (∀ i (e : NElem), (naturalKey s).get? i = some e →
        (i % 2 = 0 → ∃ u, e = NElem.str u) ∧ (i % 2 = 1 → ∃ n, e = NElem.num n))
    ∧ (natListCmp (naturalKey s) (naturalKey t)).isSome = true := by
  refine ⟨?_, ?_, natListCmp_isSome _ _ (natShape_naturalKey s) (natShape_naturalKey t)⟩
  · have h := natShape_naturalKey s
    generalize naturalKey s = l at h ⊢
    induction h with
    | single u => rfl
    | cons u n rest hrest ih =>
      simp only [List.length_cons]
      omega
  · have h := natShape_naturalKey s
    generalize naturalKey s = l at h ⊢
    induction h with
    | single u =>
      intro i e he
      cases i with
      | zero =>
        simp only [List.get?] at he
        exact ⟨fun _ => ⟨u, (Option.some_inj.mp he).symm⟩, fun hi => by omega⟩
      | succ j =>
        cases j <;> simp [List.get?] at he
    | cons u n rest hrest ih =>
      intro i e he
      match i with
      | 0 =>
        simp only [List.get?] at he
        exact ⟨fun _ => ⟨u, (Option.some_inj.mp he).symm⟩, fun hi => by omega⟩
      | 1 =>
        simp only [List.get?] at he
        exact ⟨fun hi => by omega, fun _ => ⟨n, (Option.some_inj.mp he).symm⟩⟩
      | (j + 2) =>
        simp only [List.get?] at he
        have := ih j e he
        constructor
        · intro hi
          exact this.1 (by omega)
        · intro hi
          exact this.2 (by omega)

/-- Witness for C9 at concrete filenames. -/
theorem naturalKey_alternation_witness :
    (naturalKey "img2.jpg".toList).length % 2 = 1
    ∧ (∀ i (e : NElem), (naturalKey "img2.jpg".toList).get? i = some e →
        (i % 2 = 0 → ∃ u, e = NElem.str u) ∧ (i % 2 = 1 → ∃ n, e = NElem.num n))
    ∧ (natListCmp (naturalKey "img2.jpg".toList)
        (naturalKey "x10y".toList)).isSome = true :=
  naturalKey_alternation "img2.jpg".toList "x10y".toList

/-!
## The natural sort modes
-/

theorem sortConfigOf_natural :
    sortConfigOf "natural" = ⟨"natural", "", false⟩ := by decide

theorem sortConfigOf_naturalRev :
    sortConfigOf "natural-rev" = ⟨"natural", "", true⟩ := by decide

theorem sortKeyFun_natural (osStat : Path → Option (String → Int))
    (att : String) (rev : Bool) (p : Path) :
    sortKeyFun osStat ⟨"natural", att, rev⟩ p
      = SKey.natural (naturalKey (basenameChars p)) := rfl

theorem sortPhotoList_natural_pair (osStat : Path → Option (String → Int))
    (a b : Path) :
    sortPhotoList osStat "natural" [a, b]
      = if natListLe (naturalKey (basenameChars a))
            (naturalKey (basenameChars b)) then [a, b] else [b, a] := by
  simp [sortPhotoList, sortConfigOf_natural, insertionSortB, orderedInsertB,
    sortKeyFun_natural, skeyLe]

theorem sortPhotoList_naturalRev_pair (osStat : Path → Option (String → Int))
    (a b : Path) :
    sortPhotoList osStat "natural-rev" [a, b]
      = if natListLe (naturalKey (basenameChars b))
            (naturalKey (basenameChars a)) then [a, b] else [b, a] := by
  simp [sortPhotoList, sortConfigOf_naturalRev, insertionSortB, orderedInsertB,
    sortKeyFun_natural, skeyLe]

/-- C7: the natural key splits the base filename into alternating runs
of digits and non-digits, digit runs comparing as unsigned integers and
text runs case-folded; on the spec's example `natural` ascending yields
img1, img2, img10 and `natural-rev` the exact reverse; and for any two
entries with unequal natural keys the descending variant orders the
pair oppositely to the ascending one. -/
theorem naturalSort_example (osStat : Path → Option (String → Int))
    (a b : Path)
    (hne : naturalKey (basenameChars a) ≠ naturalKey (basenameChars b)) :
    sortPhotoList (fun _ => none) "natural"
        [["img2.jpg"], ["img10.jpg"], ["img1.jpg"]]
      = [["img1.jpg"], ["img2.jpg"], ["img10.jpg"]]
    ∧ sortPhotoList (fun _ => none) "natural-rev"
        [["img2.jpg"], ["img10.jpg"], ["img1.jpg"]]
      = [["img10.jpg"], ["img2.jpg"], ["img1.jpg"]]
    ∧ sortPhotoList osStat "natural" [a, b]
      = (sortPhotoList osStat "natural-rev" [a, b]).reverse := by
  refine ⟨by decide, by decide, ?_⟩
  have hsha := natShape_naturalKey (basenameChars a)
  have hshb := natShape_naturalKey (basenameChars b)
  have hsome := natListCmp_isSome _ _ hsha hshb
  rw [sortPhotoList_natural_pair, sortPhotoList_naturalRev_pair]
  cases ho : natListCmp (naturalKey (basenameChars a))
      (naturalKey (basenameChars b)) with
  | none => rw [ho] at hsome; cases hsome
  | some o =>
    have hswap := natListCmp_swap (naturalKey (basenameChars a))
      (naturalKey (basenameChars b))
    rw [ho] at hswap
    simp only [Option.map_some'] at hswap
    cases o with
    | eq => exact absurd (natListCmp_eq_iff _ _ ho) hne
    | lt =>
      have h1 : natListLe (naturalKey (basenameChars a))
          (naturalKey (basenameChars b)) = true := by
        simp [natListLe, ho]
      have h2 : natListLe (naturalKey (basenameChars b))
          (naturalKey (basenameChars a)) = false := by
        simp only [Ordering.swap] at hswap
        simp [natListLe, hswap]
      rw [h1, h2]
      simp
    | gt =>
      have h1 : natListLe (naturalKey (basenameChars a))
          (naturalKey (basenameChars b)) = false := by
        simp [natListLe, ho]
      have h2 : natListLe (naturalKey (basenameChars b))
          (naturalKey (basenameChars a)) = true := by
        simp only [Ordering.swap] at hswap
        simp [natListLe, hswap]
      rw [h1, h2]
      simp

/-- Witness for C7 at two concrete entries with unequal keys. -/
theorem naturalSort_example_witness :
    sortPhotoList (fun _ => none) "natural"
        [["img2.jpg"], ["img10.jpg"], ["img1.jpg"]]
      = [["img1.jpg"], ["img2.jpg"], ["img10.jpg"]]
    ∧ sortPhotoList (fun _ => none) "natural-rev"
        [["img2.jpg"], ["img10.jpg"], ["img1.jpg"]]
      = [["img10.jpg"], ["img2.jpg"], ["img1.jpg"]]
    ∧ sortPhotoList constStat "natural" [["img2.jpg"], ["img10.jpg"]]
      = (sortPhotoList constStat "natural-rev"
          [["img2.jpg"], ["img10.jpg"]]).reverse :=
  naturalSort_example constStat ["img2.jpg"] ["img10.jpg"] (by decide)

/-!
## The `--sort` value handling
-/

theorem dictGet_eq_none_iff (d : List (String × String)) (k : String) :
    dictGet d k = none ↔ k ∉ d.map (·.1) := by
  simp only [dictGet, Option.map_eq_none', List.find?_eq_none,
    decide_eq_true_eq, List.mem_map, not_exists]
  tauto

theorem lookup_domain :
    SORT_MODE_LOOKUP.map (·.1)
      = ["name", "", "namerev", "natural", "1210", "naturalrev", "1021",
         "created", "createdrev", "modified", "modifiedrev", "size",
         "sizerev"] := by decide

/-- C2 counterexample: the value `"-"` is none of the ten mode keys and
is not a case/punctuation-insensitive match of any of the ten display
labels, yet the program accepts it (selecting `size-rev`) instead of
printing the usage message and exiting with code 1: the normalizer also
strips the Cyrillic letters, so every non-natural label normalizes to
the empty string, as does `"-"`. -/
theorem sortValueDashAccepted :
    parseSortValue "-" = some "size-rev"
    ∧ "-" ∉ sortModeKeys
    ∧ sortModeLabels.all (fun l => !(specLabelMatch "-" l)) = true := by
  decide

/-- C2 (amended): `--sort v` is accepted exactly when the normalization
of `v` (lower-case, strip every character outside `[a-z0-9]`) lands in
the lookup table built from the similarly normalized keys and labels:
the ten keys (which each select their own mode), the digit strings
`1210`/`1021` from the two natural labels, and the empty string — every
other label strips to empty, and the last writer wins, so any value
normalizing to the empty string (pure punctuation, pure Cyrillic, ...)
selects `size-rev`.  Every other value prints the usage message and
exits with code 1. -/
theorem parseSortValue_characterization (v k : String)
    (hk : k ∈ sortModeKeys) :
    (parseSortValue v = none ↔
       normalizeSortMode v ∉ ["name", "", "namerev", "natural", "1210",
         "naturalrev", "1021", "created", "createdrev", "modified",
         "modifiedrev", "size", "sizerev"])
    ∧ parseSortValue k = some k
    ∧ parseSortValue "-" = some "size-rev" := by
  refine ⟨?_, ?_, by decide⟩
  · rw [parseSortValue, dictGet_eq_none_iff, lookup_domain]
  · fin_cases hk <;> decide

/-- Witness for C2 (amended) at concrete values. -/
theorem parseSortValue_characterization_witness :
    "name" ∈ sortModeKeys
    ∧ ((parseSortValue "xyzq" = none ↔
          normalizeSortMode "xyzq" ∉ ["name", "", "namerev", "natural",
            "1210", "naturalrev", "1021", "created", "createdrev",
            "modified", "modifiedrev", "size", "sizerev"])
        ∧ parseSortValue "name" = some "name"
        ∧ parseSortValue "-" = some "size-rev") :=
  ⟨by decide, parseSortValue_characterization "xyzq" "name" (by decide)⟩

/-!
## The transfer engine
-/

theorem commonLen_append (root rel : Path) :
    commonLen (root ++ rel) root = root.length := by
  induction root with
  | nil => cases rel <;> rfl
  | cons d ds ih => simp [commonLen, ih]

theorem relpath_append (root rel : Path) : relpath (root ++ rel) root = rel := by
  simp [relpath, commonLen_append]

theorem movePhotoFs_move_eval (sourceDir : Path) (fs : Fs)
    (sourcePath destBase : Path) :
    movePhotoFs false "move" sourceDir fs sourcePath destBase
      = (fsSet (fsSet fs (movePhotoDest sourceDir sourcePath destBase)
          (fs sourcePath)) sourcePath none, true) := rfl

theorem movePhotoFs_copy_eval (sourceDir : Path) (fs : Fs)
    (sourcePath destBase : Path) :
    movePhotoFs false "copy" sourceDir fs sourcePath destBase
      = (fsSet fs (movePhotoDest sourceDir sourcePath destBase)
          (fs sourcePath), true) := rfl

/-- C5: for every entry under the source root, the transfer re-roots
the entry's path relative to the source root under the destination root
(`D/a/b/c.jpg` for `source/a/b/c.jpg` moved into `D`); afterwards the
destination holds exactly the source bytes, the source is gone in move
mode and still holds the same bytes in copy mode, and no other path is
touched.  Intermediate directory creation has no footprint in the file
map. -/
theorem movePhoto_transfer (sourceDir destBase rel : Path) (fs : Fs)
    (hne : joinPath destBase rel ≠ joinPath sourceDir rel) :
    movePhotoDest sourceDir (joinPath sourceDir rel) destBase
        = joinPath destBase rel
    ∧ (movePhotoFs false "move" sourceDir fs (joinPath sourceDir rel)
        destBase).1 (joinPath destBase rel) = fs (joinPath sourceDir rel)
    ∧ (movePhotoFs false "move" sourceDir fs (joinPath sourceDir rel)
        destBase).1 (joinPath sourceDir rel) = none
    ∧ (∀ q, q ≠ joinPath destBase rel → q ≠ joinPath sourceDir rel →
        (movePhotoFs false "move" sourceDir fs (joinPath sourceDir rel)
          destBase).1 q = fs q)
    ∧ (movePhotoFs false "copy" sourceDir fs (joinPath sourceDir rel)
        destBase).1 (joinPath destBase rel) = fs (joinPath sourceDir rel)
    ∧ (movePhotoFs false "copy" sourceDir fs (joinPath sourceDir rel)
        destBase).1 (joinPath sourceDir rel) = fs (joinPath sourceDir rel) := by
  have hdest : movePhotoDest sourceDir (joinPath sourceDir rel) destBase
      = joinPath destBase rel := by
    simp [movePhotoDest, joinPath, relpath_append]
  refine ⟨hdest, ?_, ?_, ?_, ?_, ?_⟩
  · rw [movePhotoFs_move_eval, hdest]
    simp [fsSet, hne]
  · rw [movePhotoFs_move_eval, hdest]
    simp [fsSet]
  · intro q hq1 hq2
    rw [movePhotoFs_move_eval, hdest]
    simp [fsSet, hq1, hq2]
  · rw [movePhotoFs_copy_eval, hdest]
    simp [fsSet]
  · rw [movePhotoFs_copy_eval, hdest]
    have hne2 : joinPath sourceDir rel ≠ joinPath destBase rel := Ne.symm hne
    simp [fsSet, hne2]

/-- Witness for C5 at the concrete round-trip of the spec. -/
theorem movePhoto_transfer_witness :
    (["D"] ++ ["a", "b", "c.jpg"] : Path) ≠ ["source"] ++ ["a", "b", "c.jpg"]
    ∧ (movePhotoDest ["source"] (joinPath ["source"] ["a", "b", "c.jpg"]) ["D"]
        = joinPath ["D"] ["a", "b", "c.jpg"]
      ∧ (movePhotoFs false "move" ["source"] sampleFs
          (joinPath ["source"] ["a", "b", "c.jpg"]) ["D"]).1
          (joinPath ["D"] ["a", "b", "c.jpg"])
          = sampleFs (joinPath ["source"] ["a", "b", "c.jpg"])
      ∧ (movePhotoFs false "move" ["source"] sampleFs
          (joinPath ["source"] ["a", "b", "c.jpg"]) ["D"]).1
          (joinPath ["source"] ["a", "b", "c.jpg"]) = none
      ∧ (∀ q, q ≠ joinPath ["D"] ["a", "b", "c.jpg"] →
          q ≠ joinPath ["source"] ["a", "b", "c.jpg"] →
          (movePhotoFs false "move" ["source"] sampleFs
            (joinPath ["source"] ["a", "b", "c.jpg"]) ["D"]).1 q = sampleFs q)
      ∧ (movePhotoFs false "copy" ["source"] sampleFs
          (joinPath ["source"] ["a", "b", "c.jpg"]) ["D"]).1
          (joinPath ["D"] ["a", "b", "c.jpg"])
          = sampleFs (joinPath ["source"] ["a", "b", "c.jpg"])
      ∧ (movePhotoFs false "copy" ["source"] sampleFs
          (joinPath ["source"] ["a", "b", "c.jpg"]) ["D"]).1
          (joinPath ["source"] ["a", "b", "c.jpg"])
          = sampleFs (joinPath ["source"] ["a", "b", "c.jpg"])) :=
  ⟨by decide, movePhoto_transfer ["source"] ["D"] ["a", "b", "c.jpg"] sampleFs
    (by decide)⟩

/-!
## The navigation session
-/

theorem loadNextPhoto_idx_ge (s : Session) :
    s.idx + 1 ≤ (loadNextPhoto s).idx := by
  induction s using loadNextPhoto.induct with
  | case1 x hlt hnone =>
    rw [loadNextPhoto]
    simp [dif_pos hlt, hnone]
  | case2 x hlt cur hcur hok =>
    rw [loadNextPhoto]
    simp [dif_pos hlt, hcur, hok]
  | case3 x hlt cur hcur hok ih =>
    rw [loadNextPhoto]
    simp only [dif_pos hlt, hcur, hok, Bool.false_eq_true, if_false]
    simp at ih
    omega
  | case4 x hlt hz =>
    rw [loadNextPhoto, dif_neg hlt]
    simp [hz]
  | case5 x hlt hz =>
    rw [loadNextPhoto, dif_neg hlt]
    simp [hz]

theorem loadNextPhoto_log_append (s : Session) :
    ∃ pre, (loadNextPhoto s).log = pre ++ s.log := by
  induction s using loadNextPhoto.induct with
  | case1 x hlt hnone =>
    rw [loadNextPhoto]
    refine ⟨[Act.tkError, Act.stopPlayback], ?_⟩
    simp [dif_pos hlt, hnone]
  | case2 x hlt cur hcur hok =>
    rw [loadNextPhoto]
    refine ⟨[Act.preview cur, Act.stopPlayback], ?_⟩
    simp [dif_pos hlt, hcur, hok]
  | case3 x hlt cur hcur hok ih =>
    rw [loadNextPhoto]
    simp only [dif_pos hlt, hcur, hok, Bool.false_eq_true, if_false]
    simp at ih
    obtain ⟨pre, hpre⟩ := ih
    exact ⟨pre ++ [Act.previewError cur, Act.stopPlayback], by simp [hpre]⟩
  | case4 x hlt hz =>
    rw [loadNextPhoto, dif_neg hlt]
    refine ⟨[Act.noFilesMsg, Act.stopPlayback], ?_⟩
    simp [hz]
  | case5 x hlt hz =>
    rw [loadNextPhoto, dif_neg hlt]
    refine ⟨[Act.doneMsg, Act.stopPlayback], ?_⟩
    simp [hz]

theorem loadNextPhoto_step_preview (s : Session) (cur : Path)
    (hlt : s.idx + 1 < (s.files.length : Int))
    (hcur : pyIndex s.files (s.idx + 1) = some cur)
    (hok : s.previewOk cur = true) :
    loadNextPhoto s = { s with idx := s.idx + 1,
                               currentIsVideo := isSupportedVideo cur,
                               log := Act.preview cur :: Act.stopPlayback :: s.log } := by
  rw [loadNextPhoto, dif_pos hlt]
  simp [hcur, hok]

theorem loadNextPhoto_healthy (s : Session)
    (hprev : ∀ p, s.previewOk p = true) (h0 : 0 ≤ s.idx) :
    (loadNextPhoto s).idx = s.idx + 1 := by
  rw [loadNextPhoto]
  by_cases hlt : s.idx + 1 < (s.files.length : Int)
  · rw [dif_pos hlt]
    have hn : (s.idx + 1).toNat < s.files.length := by omega
    cases hcur : pyIndex s.files (s.idx + 1) with
    | none =>
      rw [pyIndex, if_pos (by omega : (0:Int) ≤ s.idx + 1),
        List.get?_eq_get hn] at hcur
    | some cur => simp [hcur, hprev cur]
  · rw [dif_neg hlt]
    by_cases hz : s.files.length = 0
    · simp [hz]
    · simp [hz]

theorem movePhotoFs_ok (ioFail : Bool) (m : String) (sd : Path) (fs : Fs)
    (sp db : Path) : (movePhotoFs ioFail m sd fs sp db).2 = !ioFail := by
  cases ioFail with
  | true => rfl
  | false =>
    by_cases hm : m = "copy" <;> simp [movePhotoFs, hm]

theorem onKeyPress_idx_ge (ioFail : Bool) (e : KeyEvent) (t : Session) :
    t.idx ≤ (onKeyPress ioFail e t).idx := by
  simp only [onKeyPress]
  split
  · exact le_refl _
  · split
    · exact le_refl _
    · next cur heq =>
      split
      · next dest heq2 =>
        have h2 := loadNextPhoto_idx_ge (movePhotoS ioFail cur dest t)
        have hidx : (movePhotoS ioFail cur dest t).idx = t.idx := rfl
        omega
      · split_ifs with h1 h2 h3 h4 h5
        · have h6 := loadNextPhoto_idx_ge
            { t with log := Act.skip cur :: Act.stopPlayback :: t.log }
          simp at h6
          omega
        all_goals exact le_refl _

theorem onResize_idx_ge (b : Bool) (t : Session) :
    t.idx ≤ (onResize b t).idx := by
  rw [onResize]
  cases b with
  | false => simp
  | true =>
    simp only [if_true]
    by_cases h0 : 0 ≤ t.idx
    · rw [if_pos h0]
      have h2 := loadNextPhoto_idx_ge { t with idx := t.idx - 1 }
      simp at h2
      omega
    · rw [if_neg h0]

/-- C10: once the cursor has reached the sequence length, every key
press is a no-op: `on_key_press` returns before dispatching, so the
state is unchanged — no transfer, no cursor movement, no playback
operation — for every key, including routing, skip and media-control
keys, and for either transfer outcome. -/
theorem terminalKeysNoop (ioFail : Bool) (e : KeyEvent) (s : Session)
    (hterm : (s.files.length : Int) ≤ s.idx) :
    onKeyPress ioFail e s = s := by
  simp only [onKeyPress]
  rw [if_pos hterm]

/-- Witness for C10 at a concrete terminal session, for a routing key,
the skip key and a media-control key. -/
theorem terminalKeysNoop_witness :
    onKeyPress true ⟨"1", "1"⟩ { sampleSession with idx := 2 }
        = { sampleSession with idx := 2 }
    ∧ onKeyPress false ⟨"s", "S"⟩ { sampleSession with idx := 2 }
        = { sampleSession with idx := 2 }
    ∧ onKeyPress false ⟨" ", "SPACE"⟩ { sampleSession with idx := 2 }
        = { sampleSession with idx := 2 } :=
  ⟨terminalKeysNoop true ⟨"1", "1"⟩ _ (by decide),
   terminalKeysNoop false ⟨"s", "S"⟩ _ (by decide),
   terminalKeysNoop false ⟨" ", "SPACE"⟩ _ (by decide)⟩

/-- C6: on a routing key with a current entry, the session invokes the
transfer and then advances the cursor to the next entry whether the
transfer succeeded or failed — the transfer with its actual outcome is
in the log, the cursor moved by one either way, and the handler returns
normally (a failed transfer never aborts the session). -/
theorem routingKeyAdvances (ioFail : Bool) (e : KeyEvent) (s : Session)
    (dest cur : Path)
    (hk : (s.destMap.find? (fun kv => kv.1 = upperStr e.char)).map (·.2)
        = some dest)
    (h0 : 0 ≤ s.idx) (hlt : s.idx < (s.files.length : Int))
    (hcur : pyIndex s.files s.idx = some cur)
    (hprev : ∀ p, s.previewOk p = true) :
    (onKeyPress ioFail e s).idx = s.idx + 1
    ∧ Act.transfer cur (movePhotoDest s.sourceDir cur dest) (!ioFail)
        ∈ (onKeyPress ioFail e s).log := by
  have hstep : onKeyPress ioFail e s
      = loadNextPhoto (movePhotoS ioFail cur dest s) := by
    simp only [onKeyPress]
    rw [if_neg (not_le.mpr hlt)]
    simp only [hcur, hk]
  rw [hstep]
  constructor
  · rw [loadNextPhoto_healthy]
    · simp [movePhotoS]
    · intro p
      simpa [movePhotoS] using hprev p
    · simpa [movePhotoS] using h0
  · obtain ⟨pre, hpre⟩ := loadNextPhoto_log_append (movePhotoS ioFail cur dest s)
    rw [hpre]
    simp [movePhotoS, movePhotoFs_ok, List.mem_append]

/-- Witness for C6 at a concrete session, both for a failing and for a
succeeding transfer. -/
theorem routingKeyAdvances_witness :
    (onKeyPress true ⟨"1", "1"⟩ sampleSession).idx = sampleSession.idx + 1
    ∧ Act.transfer ["source", "a.jpg"]
        (movePhotoDest sampleSession.sourceDir ["source", "a.jpg"] ["d1"])
        (!true) ∈ (onKeyPress true ⟨"1", "1"⟩ sampleSession).log :=
  routingKeyAdvances true ⟨"1", "1"⟩ sampleSession ["d1"] ["source", "a.jpg"]
    (by decide) (by decide) (by decide) (by decide) (fun p => rfl)

/-- C8: a resize notification while a current item exists reloads the
same cursor index — the cursor is unchanged, the same entry is
previewed again, the next entry is not consumed and no transfer is
logged — and every session step (resize, key press, load-next) leaves
the cursor non-decreasing, so apart from the internal step-back inside
the resize reload the cursor never moves backwards. -/
theorem onResizeReloadsSameEntry (s : Session) (f : Path)
    (h0 : 0 ≤ s.idx) (hlt : s.idx < (s.files.length : Int))
    (hcur : pyIndex s.files s.idx = some f)
    (hok : s.previewOk f = true) :
    (onResize true s).idx = s.idx
    ∧ (onResize true s).log = Act.preview f :: Act.stopPlayback :: s.log
    ∧ (∀ b (t : Session), t.idx ≤ (onResize b t).idx)
    ∧ (∀ ioFail e (t : Session), t.idx ≤ (onKeyPress ioFail e t).idx)
    ∧ (∀ t : Session, t.idx ≤ (loadNextPhoto t).idx) := by
  have hel : s.idx - 1 + 1 = s.idx := by omega
  have hmain : onResize true s
      = { s with idx := s.idx - 1 + 1,
                 currentIsVideo := isSupportedVideo f,
                 log := Act.preview f :: Act.stopPlayback :: s.log } := by
    rw [onResize, if_pos rfl, if_pos h0]
    rw [loadNextPhoto_step_preview _ f]
    · simpa [hel] using hlt
    · simpa [hel] using hcur
    · exact hok
  refine ⟨?_, ?_, onResize_idx_ge, onKeyPress_idx_ge, ?_⟩
  · rw [hmain]
    simp [hel]
  · rw [hmain]
  · intro t
    have := loadNextPhoto_idx_ge t
    omega

/-- Witness for C8 at a concrete session. -/
theorem onResizeReloadsSameEntry_witness :
    (onResize true sampleSession).idx = sampleSession.idx
    ∧ (onResize true sampleSession).log
        = Act.preview ["source", "a.jpg"] :: Act.stopPlayback
            :: sampleSession.log
    ∧ (∀ b (t : Session), t.idx ≤ (onResize b t).idx)
    ∧ (∀ ioFail e (t : Session), t.idx ≤ (onKeyPress ioFail e t).idx)
    ∧ (∀ t : Session, t.idx ≤ (loadNextPhoto t).idx) :=
  onResizeReloadsSameEntry sampleSession ["source", "a.jpg"]
    (by decide) (by decide) (by decide) rfl

/-!
## The playback controller
-/

/-- C4: `_stop_video_playback` is idempotent and safe from every
playback state including Idle: afterwards no poll timer is pending and
no backend handle is live; a second stop issues no operation and
changes nothing; and a progress-poll callback that fires after the stop
has no observable effect — it performs no operation (in particular it
never reads the released handle) and does not reschedule itself. -/
theorem stopVideoPlayback_safe (s : PbState) (rt rl : Int) (nid : Nat) :
    (stopVideoPlayback s).1.videoStatusJob = none
    ∧ (stopVideoPlayback s).1.vlcPlayer = none
    ∧ stopVideoPlayback (stopVideoPlayback s).1 = ((stopVideoPlayback s).1, [])
    ∧ updateVideoStatus rt rl nid (stopVideoPlayback s).1
        = ((stopVideoPlayback s).1, []) :=
  ⟨rfl, rfl, rfl, rfl⟩

/-- C3 counterexample: a live, *paused* session whose backend reports
state `Ended` with current position 10000 ms and length 60000 ms: the
claim says that after the restart the paused flag is re-applied, but
`seek(+5000)` restarts playback and leaves the session unpaused — the
restart branch clears `video_paused` before the deferred `apply_seek`
runs, so no pause is ever re-issued. -/
theorem seekRestartDropsPause :
    (seekVideo 10000 60000 VlcState.ended 5000
        ⟨some 1, some 0, 60000, true⟩).1.videoPaused = false
    ∧ (seekVideo 10000 60000 VlcState.ended 5000
        ⟨some 1, some 0, 60000, true⟩).2
        = [PbAct.playerStop, PbAct.playerPlay, PbAct.setTime 15000]
    ∧ PbAct.setPause ∉ (seekVideo 10000 60000 VlcState.ended 5000
        ⟨some 1, some 0, 60000, true⟩).2 := by
  decide

/-- C3 (amended): on a live playback session, `seek(delta)` targets
`clamp(current + delta, 0, duration)` when the duration is known and
`max(0, current + delta)` otherwise; when the backend is already in
`Stopped`/`Ended` with the target still below the known duration,
playback is restarted (stop, play) before the seek is applied — but the
restart *clears* the paused flag and the pause is not re-issued; the
pause is re-applied after the seek only on the non-restart path. -/
theorem seekVideo_spec (current length delta : Int) (st : VlcState)
    (s : PbState) (p : Nat) (hp : s.vlcPlayer = some p) :
    PbAct.setTime (specSeekTarget current length delta)
        ∈ (seekVideo current length st delta s).2
    ∧ (specSeekRestart current length delta st →
        (seekVideo current length st delta s).1.videoPaused = false
        ∧ (seekVideo current length st delta s).2
            = [PbAct.playerStop, PbAct.playerPlay,
               PbAct.setTime (specSeekTarget current length delta)]
        ∧ PbAct.setPause ∉ (seekVideo current length st delta s).2)
    ∧ (¬ specSeekRestart current length delta st →
        (seekVideo current length st delta s).1 = s
        ∧ (seekVideo current length st delta s).2
            = PbAct.setTime (specSeekTarget current length delta)
              :: (if s.videoPaused then [PbAct.setPause] else [])) := by
  have htc : (if length ≠ 0 ∧ 0 < length then
        max 0 (min (current + delta) length)
      else max 0 (current + delta)) = specSeekTarget current length delta := by
    unfold specSeekTarget
    by_cases hl : 0 < length
    · rw [if_pos ⟨by omega, hl⟩, if_pos hl]
    · rw [if_neg (fun h => hl h.2), if_neg hl]
  have htnn : 0 ≤ specSeekTarget current length delta := by
    unfold specSeekTarget
    by_cases hl : 0 < length
    · rw [if_pos hl]
      exact le_max_left 0 _
    · rw [if_neg hl]
      exact le_max_left 0 _
  have hrc : (length ≠ 0
        ∧ (if length ≠ 0 ∧ 0 < length then
            max 0 (min (current + delta) length)
          else max 0 (current + delta)) < length
        ∧ (st = VlcState.ended ∨ st = VlcState.stopped))
      ↔ specSeekRestart current length delta st := by
    rw [htc]
    unfold specSeekRestart
    constructor
    · rintro ⟨h1, h2, h3⟩
      exact ⟨by omega, h2, h3⟩
    · rintro ⟨h1, h2, h3⟩
      exact ⟨by omega, h2, h3⟩
  simp only [seekVideo, hp]
  by_cases hre : specSeekRestart current length delta st
  · rw [if_pos (hrc.mpr hre)]
    rw [htc]
    refine ⟨by simp, fun _ => ⟨rfl, rfl, by simp⟩, fun hn => absurd hre hn⟩
  · rw [if_neg (fun hx => hre (hrc.mp hx))]
    rw [htc]
    exact ⟨List.mem_cons_self _ _, fun hx => absurd hx hre,
      fun _ => ⟨rfl, rfl⟩⟩

/-- Witness for C3 (amended) at the spec's clamping example: current
58000 ms, duration 60000 ms, seek(+5000) while playing. -/
theorem seekVideo_spec_witness :
    PbAct.setTime (specSeekTarget 58000 60000 5000)
        ∈ (seekVideo 58000 60000 VlcState.playing 5000
            ⟨some 1, some 0, 0, false⟩).2
    ∧ (specSeekRestart 58000 60000 5000 VlcState.playing →
        (seekVideo 58000 60000 VlcState.playing 5000
            ⟨some 1, some 0, 0, false⟩).1.videoPaused = false
        ∧ (seekVideo 58000 60000 VlcState.playing 5000
            ⟨some 1, some 0, 0, false⟩).2
            = [PbAct.playerStop, PbAct.playerPlay,
               PbAct.setTime (specSeekTarget 58000 60000 5000)]
        ∧ PbAct.setPause ∉ (seekVideo 58000 60000 VlcState.playing 5000
            ⟨some 1, some 0, 0, false⟩).2)
    ∧ (¬ specSeekRestart 58000 60000 5000 VlcState.playing →
        (seekVideo 58000 60000 VlcState.playing 5000
            ⟨some 1, some 0, 0, false⟩).1 = ⟨some 1, some 0, 0, false⟩
        ∧ (seekVideo 58000 60000 VlcState.playing 5000
            ⟨some 1, some 0, 0, false⟩).2
            = PbAct.setTime (specSeekTarget 58000 60000 5000)
              :: (if (false : Bool) then [PbAct.setPause] else [])) :=
  seekVideo_spec 58000 60000 5000 VlcState.playing
    ⟨some 1, some 0, 0, false⟩ 0 rfl

end SortPhotos
